import Mathlib

/-!
Verification of the seccomp-profile minimizer (`seccomp-minimizer.py`).

The script greedily minimizes a seccomp allow-list: it enumerates the sorted,
deduplicated syscall names of a baseline profile, and for each candidate builds
a trial profile with that syscall removed, launches a container under the trial
profile, verifies the web application, and either commits the removal to the
working profile or marks the syscall necessary.

The embedding below models the profile data (a JSON document with a `syscalls`
list of groups, each group optionally carrying a `names` list), the pure profile
operations (`get_all_syscalls`, `remove_syscall_from_profile`), and the
minimization loop.  External effects (the docker launch, the HTTP checks, and
file writes) are modelled by explicit environment records giving the outcome of
each external call; exceptions raised by an external call are environment flags.
-/

/-! ### Lexicographic order on strings

Python's `sorted` compares strings lexicographically by code point.  The
built-in `String` order of Lean does not reduce in the kernel, so the same
order is defined here structurally over the character list of a string. -/

/-- Lexicographic comparison of character lists by code point: the order python
uses when sorting a list of strings. -/
def lexLeb : List Char → List Char → Bool
  | [], _ => true
  | _ :: _, [] => false
  | a :: as, b :: bs =>
    if a < b then true else if b < a then false else lexLeb as bs

/-- Lexicographic order on strings, as python's `sorted` orders them. -/
def strle (a b : String) : Prop :=
  lexLeb a.data b.data = true

instance : DecidableRel strle := fun a b =>
  inferInstanceAs (Decidable (lexLeb a.data b.data = true))

theorem lexLeb_total : ∀ as bs, lexLeb as bs = true ∨ lexLeb bs as = true := by
  intro as
  induction as with
  | nil => intro bs; left; rfl
  | cons a as ih =>
    intro bs
    cases bs with
    | nil => right; rfl
    | cons b bs =>
      simp only [lexLeb]
      rcases lt_trichotomy a b with h | h | h
      · left; simp [h]
      · subst h
        simp only [lt_irrefl, if_false]
        exact ih bs
      · right; simp [h]

theorem lexLeb_trans : ∀ as bs cs, lexLeb as bs = true → lexLeb bs cs = true →
    lexLeb as cs = true := by
  intro as
  induction as with
  | nil => intro bs cs _ _; rfl
  | cons a as ih =>
    intro bs cs hab hbc
    cases bs with
    | nil => simp [lexLeb] at hab
    | cons b bs =>
      cases cs with
      | nil => simp [lexLeb] at hbc
      | cons c cs =>
        simp only [lexLeb] at hab hbc ⊢
        by_cases hab1 : a < b
        · by_cases hbc1 : b < c
          · simp [lt_trans hab1 hbc1]
          · by_cases hbc2 : c < b
            · simp [lexLeb, hbc1, hbc2] at hbc
            · have : b = c := le_antisymm (not_lt.mp hbc2) (not_lt.mp hbc1)
              subst this
              simp [hab1]
        · by_cases hab2 : b < a
          · simp [lexLeb, hab1, hab2] at hab
          · have : a = b := le_antisymm (not_lt.mp hab2) (not_lt.mp hab1)
            subst this
            simp only [hab1, if_false, if_neg hab1] at hab ⊢
            by_cases hbc1 : a < c
            · simp [hbc1]
            · by_cases hbc2 : c < a
              · simp [hbc1, hbc2] at hbc
              · simp only [hbc1, hbc2, if_false] at hbc ⊢
                exact ih bs cs hab hbc

theorem lexLeb_antisymm : ∀ as bs, lexLeb as bs = true → lexLeb bs as = true →
    as = bs := by
  intro as
  induction as with
  | nil =>
    intro bs _ hba
    cases bs with
    | nil => rfl
    | cons b bs => simp [lexLeb] at hba
  | cons a as ih =>
    intro bs hab hba
    cases bs with
    | nil => simp [lexLeb] at hab
    | cons b bs =>
      simp only [lexLeb] at hab hba
      by_cases h1 : a < b
      · simp [h1, asymm h1, lt_irrefl] at hba
      · by_cases h2 : b < a
        · simp [h1, h2] at hab
        · have : a = b := le_antisymm (not_lt.mp h2) (not_lt.mp h1)
          subst this
          simp only [lt_irrefl, if_false, h1, h2] at hab hba
          rw [ih bs hab hba]

instance : IsTotal String strle := ⟨fun a b => lexLeb_total a.data b.data⟩

instance : IsTrans String strle := ⟨fun a b c => lexLeb_trans a.data b.data c.data⟩

instance : IsAntisymm String strle :=
  ⟨fun a b hab hba => by
    cases a with
    | mk as =>
      cases b with
      | mk bs => exact congrArg String.mk (lexLeb_antisymm as bs hab hba)⟩

/-! ### The profile data model and the pure profile operations -/

/-- One entry of the profile's `syscalls` list.  The python code treats each
group as a dict that may or may not carry a `names` key
(`syscall_group.get('names', [])` and `'names' in syscall_group`); `action`
stands for the remaining keys, which the script never touches. -/
structure SyscallGroup where
  action : String
  names : Option (List String)
deriving DecidableEq, Repr

/-- A seccomp profile document.  `defaultAction` stands for the keys other than
`syscalls`, which the script copies but never touches; `profile.get('syscalls', [])`
is modelled by the `syscalls` field. -/
structure Profile where
  defaultAction : String
  syscalls : List SyscallGroup
deriving DecidableEq, Repr

/-- The `names` list of a group, `[]` when the key is absent
(`syscall_group.get('names', [])`). -/
def get_names (g : SyscallGroup) : List String :=
  g.names.getD []

/-- The concatenation of all groups' name lists, before deduplication:
the `syscalls` accumulator built by the loop in `get_all_syscalls`. -/
def flat_names (p : Profile) : List String :=
  (p.syscalls.map get_names).flatten

/-- `get_all_syscalls`: `sorted(list(set(syscalls)))` — the deduplicated names,
sorted lexicographically. -/
def get_all_syscalls (p : Profile) : List String :=
  (flat_names p).dedup.insertionSort strle

/-- The per-group edit performed by `remove_syscall_from_profile`: if the group
has a `names` key and the name is present, remove its first occurrence
(python's `list.remove`); otherwise leave the group alone. -/
def removeGroup (n : String) (g : SyscallGroup) : SyscallGroup :=
  match g.names with
  | some l => if n ∈ l then { g with names := some (l.erase n) } else g
  | none => g

/-- `remove_syscall_from_profile`: deep-copies the profile and applies
`removeGroup` to every syscall group; empty groups are kept. -/
def remove_syscall_from_profile (p : Profile) (n : String) : Profile :=
  { p with syscalls := p.syscalls.map (removeGroup n) }

/-! ### The trial model

One trial (`minimize_seccomp_profile`'s loop body) performs, in order:
saving the trial profile file, `stop_container()` (which swallows its own
errors), `run_container_with_profile`, on success `test_web_functionality`,
and on verified success the commit of the working profile together with its
save.  The results of the external calls are collected in environment records;
a `True`-valued exception flag means the corresponding python call raised. -/

/-- Outcomes of the external calls made by `run_container_with_profile`:
the `docker run` exit (or `subprocess.TimeoutExpired`), the `docker inspect`
exit, the inspected `State.Running` field, and a flag for any other exception
raised inside the function's `try` block (all are caught and turn into a
`False` return). -/
structure ContainerEnv where
  runTimeout : Bool
  runExit : Int
  exn : Bool
  inspectExit : Int
  running : Bool
deriving DecidableEq, Repr

/-- `run_container_with_profile`: `True` exactly when the launch command exits
zero within the timeout, no exception is raised, `docker inspect` exits zero
and reports the container running after the 5-second settle delay. -/
def run_container_with_profile (e : ContainerEnv) : Bool :=
  if e.runTimeout then false
  else if e.runExit ≠ 0 then false
  else if e.exn then false
  else if e.inspectExit ≠ 0 then false
  else e.running

/-- Outcomes of the three HTTP checks of `test_web_functionality` (status
codes of GET `/`, POST `/write`, POST `/api/write`) and a flag for a
`RequestException` or any other exception during the battery (all are caught
and turn into a `False` return). -/
structure VerifyEnv where
  status1 : Int
  status2 : Int
  status3 : Int
  exn : Bool
deriving DecidableEq, Repr

/-- `test_web_functionality`: `True` exactly when no exception was raised and
all three checks returned status 200. -/
def test_web_functionality (v : VerifyEnv) : Bool :=
  if v.exn then false
  else if v.status1 ≠ 200 then false
  else if v.status2 ≠ 200 then false
  else if v.status3 ≠ 200 then false
  else true

/-- The external-world outcomes of one trial: whether saving the trial profile
file succeeded (this save happens before the trial's `try` block), the launch
outcomes, the verification outcomes, and whether saving the committed working
profile succeeded (this save happens inside the `try` block, after the
in-memory commit). -/
structure TrialEnv where
  saveTrialOk : Bool
  cenv : ContainerEnv
  venv : VerifyEnv
  saveWorkingOk : Bool
deriving DecidableEq, Repr

/-- The state after one trial: the in-memory working profile, the working
profile last persisted to `seccomp.json`, the accumulated necessary-syscall
set, and whether `test_web_functionality` was invoked during the trial. -/
structure StepResult where
  working : Profile
  persisted : Profile
  necessary : Finset String
  verifierInvoked : Bool
deriving DecidableEq

/-- One iteration of the minimization loop for candidate `s`, starting from
in-memory working profile `w`, persisted working profile `wf` and necessary
set `nec`.  A failure to save the trial profile file raises outside the `try`
block and aborts the run (`Except.error`).  Inside the `try` block: a failed
launch or failed verification adds `s` to the necessary set and leaves the
working profile alone; a verified trial commits the trial profile in memory
and then saves it — if that save raises, the handler still adds `s` to the
necessary set, with the in-memory commit already done and the file unchanged. -/
def minimizeStep (e : TrialEnv) (w wf : Profile) (nec : Finset String) (s : String) :
    Except Unit StepResult :=
  let test := remove_syscall_from_profile w s
  if e.saveTrialOk = false then Except.error ()
  else if run_container_with_profile e.cenv then
    if test_web_functionality e.venv then
      if e.saveWorkingOk then Except.ok ⟨test, test, nec, true⟩
      else Except.ok ⟨test, wf, insert s nec, true⟩
    else Except.ok ⟨w, wf, insert s nec, true⟩
  else Except.ok ⟨w, wf, insert s nec, false⟩

/-- The run state threaded through the loop: the in-memory and persisted
working profiles, the necessary set, and the sequence of candidates trialed
so far (the order in which the loop printed `Testing syscall i/n`). -/
structure RunState where
  working : Profile
  persisted : Profile
  necessary : Finset String
  trace : List String
deriving DecidableEq

instance {ε α : Type} [DecidableEq ε] [DecidableEq α] : DecidableEq (Except ε α) := fun a b =>
  match a, b with
  | Except.error x, Except.error y =>
    if h : x = y then isTrue (by rw [h])
    else isFalse (fun hc => h (Except.error.inj hc))
  | Except.error _, Except.ok _ => isFalse (fun hc => Except.noConfusion hc)
  | Except.ok _, Except.error _ => isFalse (fun hc => Except.noConfusion hc)
  | Except.ok x, Except.ok y =>
    if h : x = y then isTrue (by rw [h])
    else isFalse (fun hc => h (Except.ok.inj hc))

/-- The `for i, syscall in enumerate(all_syscalls)` loop of
`minimize_seccomp_profile`: candidates are consumed from the list `cs`
computed before the loop, `i` is the enumeration index, and the external
world's response to iteration `i` with trial profile `q` is `env i q`. -/
def minimizeLoop (env : Nat → Profile → TrialEnv) :
    List String → Nat → RunState → Except Unit RunState
  | [], _, st => Except.ok st
  | s :: rest, i, st =>
    match minimizeStep (env i (remove_syscall_from_profile st.working s))
        st.working st.persisted st.necessary s with
    | Except.error e => Except.error e
    | Except.ok r =>
      minimizeLoop env rest (i + 1) ⟨r.working, r.persisted, r.necessary, st.trace ++ [s]⟩

/-- `minimize_seccomp_profile`: the working profile starts as a deep copy of
the baseline and is saved to `seccomp.json`; the candidate list is computed
once, from the initial working profile, by `get_all_syscalls`; then the loop
runs.  The final `seccomp-minimized.json` artifact holds the returned
in-memory working profile. -/
def minimize_seccomp_profile (env : Nat → Profile → TrialEnv) (baseline : Profile) :
    Except Unit RunState :=
  minimizeLoop env (get_all_syscalls baseline) 0 ⟨baseline, baseline, ∅, []⟩

/-- Modelled from the spec: "Controller asks Enumerator for the next candidate
against the *current* working policy (not the original — each commit narrows
subsequent candidates)".  At every iteration this variant re-enumerates the
current working profile with `get_all_syscalls` and picks the first candidate
not yet tried; `fuel` bounds the number of iterations, and the iteration index
handed to the environment is the number of candidates tried so far. -/
def minimizeSpecReEnum (env : Nat → Profile → TrialEnv) :
    Nat → List String → RunState → Except Unit RunState
  | 0, _, st => Except.ok st
  | fuel + 1, tried, st =>
    match (get_all_syscalls st.working).filter (fun m => decide (m ∉ tried)) with
    | [] => Except.ok st
    | s :: _ =>
      match minimizeStep (env tried.length (remove_syscall_from_profile st.working s))
          st.working st.persisted st.necessary s with
      | Except.error e => Except.error e
      | Except.ok r =>
        minimizeSpecReEnum env fuel (tried ++ [s])
          ⟨r.working, r.persisted, r.necessary, st.trace ++ [s]⟩

/-! ### Concrete fixtures used by counterexamples and witnesses -/

/-- A profile one of whose groups lists the same syscall twice — the seccomp
format does not forbid this, and the script never checks for it. -/
def pDup : Profile :=
  ⟨"SCMP_ACT_ERRNO", [⟨"SCMP_ACT_ALLOW", some ["read", "read"]⟩]⟩

/-- A small duplicate-free baseline profile with the five syscalls of the
spec's scenario. -/
def pFive : Profile :=
  ⟨"SCMP_ACT_ERRNO", [⟨"SCMP_ACT_ALLOW", some ["read", "write", "openat", "futex", "socket"]⟩]⟩

/-- A one-syscall duplicate-free baseline profile. -/
def pOne : Profile :=
  ⟨"SCMP_ACT_ERRNO", [⟨"SCMP_ACT_ALLOW", some ["read"]⟩]⟩

/-- An environment where every external call succeeds: saves succeed, the
container launches and runs, and the three HTTP checks return 200. -/
def envOk : Nat → Profile → TrialEnv :=
  fun _ _ => ⟨true, ⟨false, 0, false, 0, true⟩, ⟨200, 200, 200, false⟩, true⟩

/-- An environment where saving the trial profile file raises on every
iteration, and everything else would succeed. -/
def envTrialSaveFails : Nat → Profile → TrialEnv :=
  fun _ _ => ⟨false, ⟨false, 0, false, 0, true⟩, ⟨200, 200, 200, false⟩, true⟩

/-- The environment of the spec's scenario: every launch succeeds, and the
verification battery passes exactly when `futex` is still present in the
trial profile's flattened syscall set (the first check fails with a 500
otherwise). -/
def envFutex : Nat → Profile → TrialEnv :=
  fun _ q =>
    ⟨true, ⟨false, 0, false, 0, true⟩,
      ⟨if "futex" ∈ get_all_syscalls q then 200 else 500, 200, 200, false⟩, true⟩

/-- The run state produced by minimizing `pDup` when every trial succeeds:
the single trial of `read` removes only the first of its two occurrences. -/
def stDup : RunState :=
  ⟨⟨"SCMP_ACT_ERRNO", [⟨"SCMP_ACT_ALLOW", some ["read"]⟩]⟩,
    ⟨"SCMP_ACT_ERRNO", [⟨"SCMP_ACT_ALLOW", some ["read"]⟩]⟩, ∅, ["read"]⟩

/-- The run state produced by minimizing `pOne` when every trial succeeds. -/
def stOne : RunState :=
  ⟨⟨"SCMP_ACT_ERRNO", [⟨"SCMP_ACT_ALLOW", some []⟩]⟩,
    ⟨"SCMP_ACT_ERRNO", [⟨"SCMP_ACT_ALLOW", some []⟩]⟩, ∅, ["read"]⟩

/-- A trial environment where the docker commands raise an exception inside
`run_container_with_profile` and everything else would succeed. -/
def trialEnvExn : TrialEnv :=
  ⟨true, ⟨false, 0, true, 0, true⟩, ⟨200, 200, 200, false⟩, true⟩

/-- A trial environment where `docker run` exits non-zero and everything else
would succeed. -/
def trialEnvLaunchFail : TrialEnv :=
  ⟨true, ⟨false, 1, false, 0, true⟩, ⟨200, 200, 200, false⟩, true⟩

/-- The step result of a trial whose launch failed for candidate `read`. -/
def stepLaunchFail : StepResult :=
  ⟨pOne, pOne, insert "read" ∅, false⟩

/-! ### Lemmas about the pure profile operations -/

theorem get_names_removeGroup (n : String) (g : SyscallGroup) :
    get_names (removeGroup n g) = (get_names g).erase n := by
  cases g with
  | mk action names =>
    cases names with
    | none => rfl
    | some l =>
      simp only [removeGroup, get_names, Option.getD]
      by_cases hm : n ∈ l
      · simp [hm]
      · simp [hm, List.erase_of_not_mem hm]

theorem removeGroup_names (n : String) (g : SyscallGroup) :
    (removeGroup n g).names = g.names.map (fun l => l.erase n) := by
  cases g with
  | mk action names =>
    cases names with
    | none => rfl
    | some l =>
      simp only [removeGroup, Option.map]
      by_cases hm : n ∈ l
      · simp [hm]
      · simp [hm, List.erase_of_not_mem hm]

theorem syscalls_remove (p : Profile) (n : String) :
    (remove_syscall_from_profile p n).syscalls = p.syscalls.map (removeGroup n) := rfl

theorem flat_names_remove (p : Profile) (n : String) :
    flat_names (remove_syscall_from_profile p n) =
      ((p.syscalls.map get_names).map (fun l => l.erase n)).flatten := by
  unfold flat_names
  rw [syscalls_remove, List.map_map, List.map_map]
  simp [Function.comp_def, get_names_removeGroup]

theorem count_flat_names_remove_ne (p : Profile) {m n : String} (h : m ≠ n) :
    (flat_names (remove_syscall_from_profile p n)).count m = (flat_names p).count m := by
  rw [flat_names_remove]
  unfold flat_names
  induction p.syscalls with
  | nil => rfl
  | cons g gs ih =>
    simp only [List.map_cons, List.flatten_cons, List.count_append, ih,
      List.count_erase_of_ne h]

theorem count_flat_names_remove_le (p : Profile) (m n : String) :
    (flat_names (remove_syscall_from_profile p n)).count m ≤ (flat_names p).count m := by
  rw [flat_names_remove]
  unfold flat_names
  induction p.syscalls with
  | nil => exact Nat.le_refl _
  | cons g gs ih =>
    simp only [List.map_cons, List.flatten_cons, List.count_append]
    exact Nat.add_le_add ((List.erase_sublist n (get_names g)).count_le m) ih

theorem count_flatten_erase_eq_zero (n : String) :
    ∀ gs : List (List String), (∀ l ∈ gs, l.count n ≤ 1) →
      ((gs.map (fun l => l.erase n)).flatten).count n = 0 := by
  intro gs
  induction gs with
  | nil => intro _; rfl
  | cons l ls ih =>
    intro h
    simp only [List.map_cons, List.flatten_cons, List.count_append]
    rw [List.count_erase_self, Nat.sub_eq_zero_of_le (h l (List.mem_cons_self l ls)),
      ih (fun l' hl' => h l' (List.mem_cons_of_mem l hl'))]

theorem not_mem_flat_names_remove (p : Profile) (n : String)
    (h : ∀ g ∈ p.syscalls, (get_names g).count n ≤ 1) :
    n ∉ flat_names (remove_syscall_from_profile p n) := by
  rw [← List.count_eq_zero, flat_names_remove]
  apply count_flatten_erase_eq_zero
  intro l hl
  rw [List.mem_map] at hl
  obtain ⟨g, hg, rfl⟩ := hl
  exact h g hg

theorem mem_flat_names_remove (p : Profile) {m n : String}
    (hm : m ∈ flat_names (remove_syscall_from_profile p n)) : m ∈ flat_names p := by
  rw [← List.count_pos_iff] at hm ⊢
  exact Nat.lt_of_lt_of_le hm (count_flat_names_remove_le p m n)

theorem mem_flat_names_remove_iff (p : Profile) {m n : String}
    (h : ∀ g ∈ p.syscalls, (get_names g).count n ≤ 1) :
    m ∈ flat_names (remove_syscall_from_profile p n) ↔ m ∈ flat_names p ∧ m ≠ n := by
  constructor
  · intro hm
    refine ⟨mem_flat_names_remove p hm, ?_⟩
    rintro rfl
    exact not_mem_flat_names_remove p _ h hm
  · rintro ⟨hm, hne⟩
    rw [← List.count_pos_iff] at hm ⊢
    rwa [count_flat_names_remove_ne p hne]

theorem mem_get_all_syscalls {p : Profile} {m : String} :
    m ∈ get_all_syscalls p ↔ m ∈ flat_names p := by
  unfold get_all_syscalls
  rw [List.mem_insertionSort, List.mem_dedup]

theorem nodup_get_all_syscalls (p : Profile) : (get_all_syscalls p).Nodup :=
  ((List.perm_insertionSort strle _).nodup_iff).mpr (List.nodup_dedup _)

theorem sorted_get_all_syscalls (p : Profile) : List.Sorted strle (get_all_syscalls p) :=
  List.sorted_insertionSort strle _

theorem toFinset_get_all_syscalls (p : Profile) :
    (get_all_syscalls p).toFinset = (flat_names p).toFinset := by
  ext m
  simp only [List.mem_toFinset]
  exact mem_get_all_syscalls

theorem toFinset_get_all_remove (p : Profile) {n : String}
    (h : ∀ g ∈ p.syscalls, (get_names g).count n ≤ 1) :
    (get_all_syscalls (remove_syscall_from_profile p n)).toFinset =
      (get_all_syscalls p).toFinset \ {n} := by
  ext m
  simp only [List.mem_toFinset, Finset.mem_sdiff, Finset.mem_singleton,
    mem_get_all_syscalls]
  exact mem_flat_names_remove_iff p h

theorem groupwise_nodup_remove (p : Profile) (n : String)
    (h : ∀ g ∈ p.syscalls, (get_names g).Nodup) :
    ∀ g ∈ (remove_syscall_from_profile p n).syscalls, (get_names g).Nodup := by
  intro g' hg'
  rw [syscalls_remove, List.mem_map] at hg'
  obtain ⟨g, hg, rfl⟩ := hg'
  rw [get_names_removeGroup]
  exact (List.erase_sublist n (get_names g)).nodup (h g hg)

theorem groupwise_count_le_one (p : Profile) (n : String)
    (h : ∀ g ∈ p.syscalls, (get_names g).Nodup) :
    ∀ g ∈ p.syscalls, (get_names g).count n ≤ 1 :=
  fun g hg => List.nodup_iff_count_le_one.mp (h g hg) n

theorem nodup_mem_iff_singleton {l : List String} {x : String} (hn : l.Nodup)
    (hm : ∀ m, m ∈ l ↔ m = x) : l = [x] := by
  cases l with
  | nil => exact absurd ((hm x).mpr rfl) (List.not_mem_nil x)
  | cons a l' =>
    have ha : a = x := (hm a).mp (List.mem_cons_self a l')
    subst ha
    cases l' with
    | nil => rfl
    | cons b l'' =>
      have hb : b = a := (hm b).mp (List.mem_cons_of_mem a (List.mem_cons_self b l''))
      subst hb
      simp at hn

/-! ### Lemmas about one trial and about the minimization loop -/

theorem minimizeStep_ok_working (e : TrialEnv) (w wf : Profile) (nec : Finset String)
    (s : String) (r : StepResult) (h : minimizeStep e w wf nec s = Except.ok r) :
    r.working = remove_syscall_from_profile w s ∨ r.working = w := by
  unfold minimizeStep at h
  by_cases h1 : e.saveTrialOk = false
  · rw [if_pos h1] at h
    exact absurd h (by simp)
  · rw [if_neg h1] at h
    by_cases h2 : run_container_with_profile e.cenv = true
    · rw [if_pos h2] at h
      by_cases h3 : test_web_functionality e.venv = true
      · rw [if_pos h3] at h
        by_cases h4 : e.saveWorkingOk = true
        · rw [if_pos h4] at h
          have hr := (Except.ok.inj h).symm
          subst hr
          left; rfl
        · rw [if_neg h4] at h
          have hr := (Except.ok.inj h).symm
          subst hr
          left; rfl
      · rw [if_neg h3] at h
        have hr := (Except.ok.inj h).symm
        subst hr
        right; rfl
    · rw [if_neg h2] at h
      have hr := (Except.ok.inj h).symm
      subst hr
      right; rfl

theorem minimizeStep_ok_of_saveWorking (e : TrialEnv) (w wf : Profile) (nec : Finset String)
    (s : String) (r : StepResult) (hs : e.saveWorkingOk = true)
    (h : minimizeStep e w wf nec s = Except.ok r) :
    r = ⟨remove_syscall_from_profile w s, remove_syscall_from_profile w s, nec, true⟩ ∨
      (r.working = w ∧ r.persisted = wf ∧ r.necessary = insert s nec) := by
  unfold minimizeStep at h
  by_cases h1 : e.saveTrialOk = false
  · rw [if_pos h1] at h
    exact absurd h (by simp)
  · rw [if_neg h1] at h
    by_cases h2 : run_container_with_profile e.cenv = true
    · rw [if_pos h2] at h
      by_cases h3 : test_web_functionality e.venv = true
      · rw [if_pos h3, if_pos hs] at h
        have hr := (Except.ok.inj h).symm
        subst hr
        left; rfl
      · rw [if_neg h3] at h
        have hr := (Except.ok.inj h).symm
        subst hr
        right; exact ⟨rfl, rfl, rfl⟩
    · rw [if_neg h2] at h
      have hr := (Except.ok.inj h).symm
      subst hr
      right; exact ⟨rfl, rfl, rfl⟩

theorem length_get_all_remove_le (p : Profile) (n : String) :
    (get_all_syscalls (remove_syscall_from_profile p n)).length ≤
      (get_all_syscalls p).length := by
  have hsub : (get_all_syscalls (remove_syscall_from_profile p n)).toFinset ⊆
      (get_all_syscalls p).toFinset := by
    intro m hm
    rw [List.mem_toFinset, mem_get_all_syscalls] at hm ⊢
    exact mem_flat_names_remove p hm
  calc (get_all_syscalls (remove_syscall_from_profile p n)).length
      = (get_all_syscalls (remove_syscall_from_profile p n)).toFinset.card :=
        (List.toFinset_card_of_nodup (nodup_get_all_syscalls _)).symm
    _ ≤ (get_all_syscalls p).toFinset.card := Finset.card_le_card hsub
    _ = (get_all_syscalls p).length := List.toFinset_card_of_nodup (nodup_get_all_syscalls _)

theorem minimizeLoop_working_mem (env : Nat → Profile → TrialEnv) :
    ∀ (cs : List String) (i : Nat) (st st' : RunState),
      minimizeLoop env cs i st = Except.ok st' →
      ∀ m, m ∈ flat_names st'.working → m ∈ flat_names st.working := by
  intro cs
  induction cs with
  | nil =>
    intro i st st' h m hm
    simp only [minimizeLoop] at h
    cases h
    exact hm
  | cons s rest ih =>
    intro i st st' h m hm
    simp only [minimizeLoop] at h
    cases hstep : minimizeStep (env i (remove_syscall_from_profile st.working s))
        st.working st.persisted st.necessary s with
    | error e => rw [hstep] at h; exact absurd h (by simp)
    | ok r =>
      rw [hstep] at h
      have hm2 := ih (i + 1) ⟨r.working, r.persisted, r.necessary, st.trace ++ [s]⟩ st' h m hm
      rcases minimizeStep_ok_working _ _ _ _ _ _ hstep with hw | hw
      · rw [hw] at hm2
        exact mem_flat_names_remove st.working hm2
      · rwa [hw] at hm2

/-- The commit/revert partition built by the loop: starting from working
profile `w` with duplicate-free groups and a duplicate-free candidate list
`cs`, and provided persisting the working profile never fails, the loop
splits `cs` into a set `D` of committed removals (gone from the flattened
set) and a set `N` of syscalls marked necessary. -/
theorem minimizeLoop_partition (env : Nat → Profile → TrialEnv)
    (henv : ∀ i q, (env i q).saveWorkingOk = true) :
    ∀ (cs : List String) (i : Nat) (w wf : Profile) (nec : Finset String)
      (tr : List String) (st' : RunState), cs.Nodup →
      (∀ g ∈ w.syscalls, (get_names g).Nodup) →
      minimizeLoop env cs i ⟨w, wf, nec, tr⟩ = Except.ok st' →
      ∃ D N : Finset String, Disjoint D N ∧ D ∪ N = cs.toFinset ∧
        (get_all_syscalls st'.working).toFinset = (get_all_syscalls w).toFinset \ D ∧
        st'.necessary = nec ∪ N := by
  intro cs
  induction cs with
  | nil =>
    intro i w wf nec tr st' _ _ h
    simp only [minimizeLoop] at h
    cases h
    exact ⟨∅, ∅, Finset.disjoint_empty_left _, by simp, by simp, by simp⟩
  | cons s rest ih =>
    intro i w wf nec tr st' hcs hw h
    have hcs1 : s ∉ rest := (List.nodup_cons.mp hcs).1
    have hcs2 : rest.Nodup := (List.nodup_cons.mp hcs).2
    simp only [minimizeLoop] at h
    cases hstep : minimizeStep (env i (remove_syscall_from_profile w s))
        w wf nec s with
    | error e => rw [hstep] at h; exact absurd h (by simp)
    | ok r =>
      rw [hstep] at h
      rcases minimizeStep_ok_of_saveWorking _ _ _ _ _ _ (henv _ _) hstep with hr | ⟨hrw, hrp, hrn⟩
      · -- the trial succeeded: the removal of `s` is committed
        subst hr
        obtain ⟨D, N, hDN, hUnion, hFlat, hNec⟩ :=
          ih (i + 1) (remove_syscall_from_profile w s) (remove_syscall_from_profile w s)
            nec (tr ++ [s]) st' hcs2 (groupwise_nodup_remove w s hw) h
        refine ⟨insert s D, N, ?_, ?_, ?_, hNec⟩
        · rw [Finset.disjoint_left]
          intro a ha haN
          rcases Finset.mem_insert.mp ha with rfl | haD
          · have : a ∈ rest.toFinset := by
              rw [← hUnion]
              exact Finset.mem_union_right _ haN
            exact hcs1 (List.mem_toFinset.mp this)
          · exact (Finset.disjoint_left.mp hDN) haD haN
        · rw [List.toFinset_cons, ← hUnion]
          ext a
          simp only [Finset.mem_insert, Finset.mem_union]
          tauto
        · rw [hFlat, toFinset_get_all_remove w (groupwise_count_le_one w s hw)]
          ext a
          simp only [Finset.mem_sdiff, Finset.mem_singleton, Finset.mem_insert]
          tauto
      · -- the trial failed: `s` is marked necessary, the working profile is kept
        obtain ⟨D, N, hDN, hUnion, hFlat, hNec⟩ :=
          ih (i + 1) r.working r.persisted r.necessary (tr ++ [s]) st'
            hcs2 (by rw [hrw]; exact hw) h
        refine ⟨D, insert s N, ?_, ?_, ?_, ?_⟩
        · rw [Finset.disjoint_left]
          intro a haD haN
          rcases Finset.mem_insert.mp haN with rfl | haN
          · have : a ∈ rest.toFinset := by
              rw [← hUnion]
              exact Finset.mem_union_left _ haD
            exact hcs1 (List.mem_toFinset.mp this)
          · exact (Finset.disjoint_left.mp hDN) haD haN
        · rw [List.toFinset_cons, ← hUnion]
          ext a
          simp only [Finset.mem_insert, Finset.mem_union]
          tauto
        · rw [hFlat, hrw]
        · rw [hNec, hrn]
          ext a
          simp only [Finset.mem_union, Finset.mem_insert]
          tauto

/-! ### Equivalence of the once-computed candidate list with per-iteration
re-enumeration of the current working profile -/

theorem eq_of_sorted_nodup_ext {l1 l2 : List String} (hs1 : List.Sorted strle l1)
    (hs2 : List.Sorted strle l2) (hn1 : l1.Nodup) (hn2 : l2.Nodup)
    (hm : ∀ m, m ∈ l1 ↔ m ∈ l2) : l1 = l2 := by
  refine List.eq_of_perm_of_sorted ?_ hs1 hs2
  refine List.perm_of_nodup_nodup_toFinset_eq hn1 hn2 ?_
  ext m
  simp only [List.mem_toFinset]
  exact hm m

theorem mem_drop_iff_of_nodup {l : List String} {k : Nat} {m : String} (hn : l.Nodup) :
    m ∈ l.drop k ↔ m ∈ l ∧ m ∉ l.take k := by
  constructor
  · intro h
    refine ⟨(List.drop_sublist k l).subset h, ?_⟩
    intro htake
    have hd : List.Disjoint (l.take k) (l.drop k) :=
      List.disjoint_of_nodup_append (by rwa [List.take_append_drop])
    exact hd htake h
  · rintro ⟨hl, htake⟩
    have hm : m ∈ l.take k ++ l.drop k := by rwa [List.take_append_drop]
    rcases List.mem_append.mp hm with h | h
    · exact absurd h htake
    · exact h

/-- If the working profile agrees with the baseline on the counts of every
untried name, then the untried part of the working profile's enumeration is
exactly the untried tail of the baseline's enumeration. -/
theorem untried_filter_eq_drop (p w : Profile) (k : Nat)
    (heq : ∀ m, m ∉ (get_all_syscalls p).take k →
      (flat_names w).count m = (flat_names p).count m) :
    (get_all_syscalls w).filter (fun m => decide (m ∉ (get_all_syscalls p).take k)) =
      (get_all_syscalls p).drop k := by
  apply eq_of_sorted_nodup_ext
  · exact List.Pairwise.sublist (List.filter_sublist _) (sorted_get_all_syscalls w)
  · exact List.Pairwise.sublist (List.drop_sublist _ _) (sorted_get_all_syscalls p)
  · exact (List.filter_sublist _).nodup (nodup_get_all_syscalls w)
  · exact (List.drop_sublist _ _).nodup (nodup_get_all_syscalls p)
  · intro m
    rw [List.mem_filter, mem_drop_iff_of_nodup (nodup_get_all_syscalls p)]
    simp only [decide_eq_true_eq]
    constructor
    · rintro ⟨hmw, hnt⟩
      refine ⟨?_, hnt⟩
      rw [mem_get_all_syscalls, ← List.count_pos_iff] at hmw ⊢
      rwa [← heq m hnt]
    · rintro ⟨hmp, hnt⟩
      refine ⟨?_, hnt⟩
      rw [mem_get_all_syscalls, ← List.count_pos_iff] at hmp ⊢
      rwa [heq m hnt]

theorem minimizeSpecReEnum_succ_cons (env : Nat → Profile → TrialEnv) (fuel : Nat)
    (tried : List String) (st : RunState) (s : String) (rest : List String)
    (hfl : (get_all_syscalls st.working).filter (fun m => decide (m ∉ tried)) = s :: rest) :
    minimizeSpecReEnum env (fuel + 1) tried st =
      match minimizeStep (env tried.length (remove_syscall_from_profile st.working s))
          st.working st.persisted st.necessary s with
      | Except.error e => Except.error e
      | Except.ok r => minimizeSpecReEnum env fuel (tried ++ [s])
          ⟨r.working, r.persisted, r.necessary, st.trace ++ [s]⟩ := by
  rw [minimizeSpecReEnum, hfl]

theorem minimizeSpecReEnum_succ_nil (env : Nat → Profile → TrialEnv) (fuel : Nat)
    (tried : List String) (st : RunState)
    (hfl : (get_all_syscalls st.working).filter (fun m => decide (m ∉ tried)) = []) :
    minimizeSpecReEnum env (fuel + 1) tried st = Except.ok st := by
  rw [minimizeSpecReEnum, hfl]

/-- Stepping the spec-modelled re-enumerating controller and the script's
once-computed loop from the same state, with `k` candidates already tried,
yields the same result: the untried candidates of the current working
profile are exactly the untried tail of the baseline's candidate list. -/
theorem specReEnum_eq_minimizeLoop (env : Nat → Profile → TrialEnv) (p : Profile) :
    ∀ (fuel k : Nat) (st : RunState), k ≤ (get_all_syscalls p).length →
      (get_all_syscalls p).length - k ≤ fuel →
      (∀ m, m ∉ (get_all_syscalls p).take k →
        (flat_names st.working).count m = (flat_names p).count m) →
      minimizeSpecReEnum env fuel ((get_all_syscalls p).take k) st =
        minimizeLoop env ((get_all_syscalls p).drop k) k st := by
  intro fuel
  induction fuel with
  | zero =>
    intro k st hk hfuel heq
    have hk2 : (get_all_syscalls p).length ≤ k := by omega
    rw [List.drop_eq_nil_of_le hk2]
    rfl
  | succ fuel ih =>
    intro k st hk hfuel heq
    have hfilt := untried_filter_eq_drop p st.working k heq
    by_cases hkl : k < (get_all_syscalls p).length
    · have hdropk : (get_all_syscalls p).drop k =
          (get_all_syscalls p)[k] :: (get_all_syscalls p).drop (k + 1) :=
        List.drop_eq_getElem_cons hkl
      have hlen : ((get_all_syscalls p).take k).length = k := by
        rw [List.length_take]
        omega
      have htake1 : (get_all_syscalls p).take k ++ [(get_all_syscalls p)[k]] =
          (get_all_syscalls p).take (k + 1) := by
        rw [List.take_succ, List.getElem?_eq_getElem hkl]
        rfl
      have hsmem : (get_all_syscalls p)[k] ∈ (get_all_syscalls p).take (k + 1) := by
        rw [← htake1]
        exact List.mem_append_right _ (List.mem_singleton.mpr rfl)
      have htk : ∀ m, m ∈ (get_all_syscalls p).take k →
          m ∈ (get_all_syscalls p).take (k + 1) := by
        intro m hm
        have he : (get_all_syscalls p).take k = ((get_all_syscalls p).take (k + 1)).take k := by
          rw [List.take_take]
          congr 1
          omega
        rw [he] at hm
        exact (List.take_sublist k _).subset hm
      rw [minimizeSpecReEnum_succ_cons env fuel _ st _ _ (by rw [hfilt, hdropk]), hlen,
        hdropk]
      simp only [minimizeLoop]
      cases hstep : minimizeStep
          (env k (remove_syscall_from_profile st.working (get_all_syscalls p)[k]))
          st.working st.persisted st.necessary (get_all_syscalls p)[k] with
      | error e => rfl
      | ok r =>
        rw [htake1]
        refine ih (k + 1) _ (by omega) (by omega) ?_
        intro m hm
        have hmk : m ∉ (get_all_syscalls p).take k := fun hc => hm (htk m hc)
        have hms : m ≠ (get_all_syscalls p)[k] := by
          rintro rfl
          exact hm hsmem
        rcases minimizeStep_ok_working _ _ _ _ _ _ hstep with hw | hw
        · show (flat_names r.working).count m = _
          rw [hw, count_flat_names_remove_ne st.working hms]
          exact heq m hmk
        · show (flat_names r.working).count m = _
          rw [hw]
          exact heq m hmk
    · have hk2 : (get_all_syscalls p).length ≤ k := by omega
      rw [List.drop_eq_nil_of_le hk2] at hfilt ⊢
      rw [minimizeSpecReEnum_succ_nil env fuel _ st hfilt]
      rfl

/-! ### Further helper lemmas about one trial -/

theorem run_container_eq_false (c : ContainerEnv)
    (h : c.runTimeout = true ∨ c.runExit ≠ 0 ∨ c.exn = true ∨ c.inspectExit ≠ 0 ∨
      c.running = false) :
    run_container_with_profile c = false := by
  unfold run_container_with_profile
  by_cases h1 : c.runTimeout = true
  · rw [if_pos h1]
  · rw [if_neg h1]
    by_cases h2 : c.runExit ≠ 0
    · rw [if_pos h2]
    · rw [if_neg h2]
      by_cases h3 : c.exn = true
      · rw [if_pos h3]
      · rw [if_neg h3]
        by_cases h4 : c.inspectExit ≠ 0
        · rw [if_pos h4]
        · rw [if_neg h4]
          rcases h with h | h | h | h | h
          · exact absurd h h1
          · exact absurd h h2
          · exact absurd h h3
          · exact absurd h h4
          · exact h

theorem test_web_false_of_exn (v : VerifyEnv) (h : v.exn = true) :
    test_web_functionality v = false := by
  unfold test_web_functionality
  rw [if_pos h]

theorem groupwise_nodup_of_flat_nodup (p : Profile) (hnd : (flat_names p).Nodup) :
    ∀ g ∈ p.syscalls, (get_names g).Nodup := fun _ hg =>
  (List.sublist_flatten_of_mem (List.mem_map_of_mem get_names hg)).nodup hnd

theorem minimizeLoop_cons (env : Nat → Profile → TrialEnv) (s : String) (rest : List String)
    (i : Nat) (w wf : Profile) (nec : Finset String) (tr : List String) :
    minimizeLoop env (s :: rest) i ⟨w, wf, nec, tr⟩ =
      match minimizeStep (env i (remove_syscall_from_profile w s)) w wf nec s with
      | Except.error err => Except.error err
      | Except.ok r =>
        minimizeLoop env rest (i + 1) ⟨r.working, r.persisted, r.necessary, tr ++ [s]⟩ := rfl

theorem envFutex_step (i : Nat) (w wf : Profile) (nec : Finset String) (s : String) :
    minimizeStep (envFutex i (remove_syscall_from_profile w s)) w wf nec s =
      if "futex" ∈ get_all_syscalls (remove_syscall_from_profile w s) then
        Except.ok ⟨remove_syscall_from_profile w s, remove_syscall_from_profile w s, nec, true⟩
      else Except.ok ⟨w, wf, insert s nec, true⟩ := by
  by_cases hf : "futex" ∈ get_all_syscalls (remove_syscall_from_profile w s)
  · rw [if_pos hf]
    show minimizeStep ⟨true, ⟨false, 0, false, 0, true⟩,
      ⟨if "futex" ∈ get_all_syscalls (remove_syscall_from_profile w s) then 200 else 500,
        200, 200, false⟩, true⟩ w wf nec s = _
    rw [if_pos hf]
    rfl
  · rw [if_neg hf]
    show minimizeStep ⟨true, ⟨false, 0, false, 0, true⟩,
      ⟨if "futex" ∈ get_all_syscalls (remove_syscall_from_profile w s) then 200 else 500,
        200, 200, false⟩, true⟩ w wf nec s = _
    rw [if_neg hf]
    rfl

theorem minimizeLoop_envFutex_fail (s : String) (rest : List String) (i : Nat)
    (w wf : Profile) (nec : Finset String) (tr : List String)
    (h : "futex" ∉ get_all_syscalls (remove_syscall_from_profile w s)) :
    minimizeLoop envFutex (s :: rest) i ⟨w, wf, nec, tr⟩ =
      minimizeLoop envFutex rest (i + 1) ⟨w, wf, insert s nec, tr ++ [s]⟩ := by
  rw [minimizeLoop_cons, envFutex_step, if_neg h]

theorem minimizeLoop_envFutex_success (s : String) (rest : List String) (i : Nat)
    (w wf : Profile) (nec : Finset String) (tr : List String)
    (h : "futex" ∈ get_all_syscalls (remove_syscall_from_profile w s)) :
    minimizeLoop envFutex (s :: rest) i ⟨w, wf, nec, tr⟩ =
      minimizeLoop envFutex rest (i + 1)
        ⟨remove_syscall_from_profile w s, remove_syscall_from_profile w s, nec, tr ++ [s]⟩ := by
  rw [minimizeLoop_cons, envFutex_step, if_pos h]

theorem futex_mem_remove {w : Profile} (s : String) (hs : "futex" ≠ s)
    (hf : "futex" ∈ flat_names w) :
    "futex" ∈ get_all_syscalls (remove_syscall_from_profile w s) := by
  rw [mem_get_all_syscalls, ← List.count_pos_iff]
  rw [← List.count_pos_iff] at hf
  rwa [count_flat_names_remove_ne w hs]

/-! ### The claims -/

/-- Claim C1, as stated, is false: when a rule group lists the same syscall
twice, `remove_syscall_from_profile` (python `list.remove`) deletes only the
first occurrence, so for `pDup` (one group with names `["read", "read"]`) the
flattened set of the result still contains `read`, while the claimed value
`flattenedSyscalls(P) − {read}` is empty. -/
theorem c1_remove_flattened_counterexample :
    ((get_all_syscalls (remove_syscall_from_profile pDup "read")).toFinset =
      (get_all_syscalls pDup).toFinset \ {"read"}) = False :=
  eq_false (by decide)

/-- Claim C1 (amended): for every policy `P` and syscall name `n` such that no
rule group's names list contains `n` more than once, the flattened syscall set
of `remove_syscall_from_profile P n` equals the flattened syscall set of `P`
minus `{n}`. -/
theorem c1_remove_flattened (p : Profile) (n : String)
    (h : ∀ g ∈ p.syscalls, (get_names g).count n ≤ 1) :
    (get_all_syscalls (remove_syscall_from_profile p n)).toFinset =
      (get_all_syscalls p).toFinset \ {n} :=
  toFinset_get_all_remove p h

/-- Witness for C1's amended theorem at the concrete profile `pFive`. -/
theorem c1_remove_flattened_witness :
    (get_all_syscalls (remove_syscall_from_profile pFive "futex")).toFinset =
      (get_all_syscalls pFive).toFinset \ {"futex"} :=
  c1_remove_flattened pFive "futex" (by decide)

/-- Claim C5, as stated, is false: on `pDup` (one group with names
`["read", "read"]`) a first removal of `read` leaves `["read"]` and a second
removal leaves `[]`, so applying `remove_syscall_from_profile` twice differs
from applying it once. -/
theorem c5_remove_idempotent_counterexample :
    (remove_syscall_from_profile (remove_syscall_from_profile pDup "read") "read" =
      remove_syscall_from_profile pDup "read") = False :=
  eq_false (by decide)

/-- Claim C5 (amended): `remove_syscall_from_profile` is idempotent on every
policy in which no rule group's names list contains the removed name more
than once. -/
theorem c5_remove_idempotent (p : Profile) (n : String)
    (h : ∀ g ∈ p.syscalls, (get_names g).count n ≤ 1) :
    remove_syscall_from_profile (remove_syscall_from_profile p n) n =
      remove_syscall_from_profile p n := by
  have hgroup : ∀ g ∈ p.syscalls, removeGroup n (removeGroup n g) = removeGroup n g := by
    intro g hg
    have hc := h g hg
    cases g with
    | mk a names =>
      cases names with
      | none => rfl
      | some l =>
        by_cases hm : n ∈ l
        · have h1 : n ∉ l.erase n := by
            rw [← List.count_eq_zero, List.count_erase_self]
            have hc2 : l.count n ≤ 1 := hc
            omega
          show removeGroup n (removeGroup n ⟨a, some l⟩) = removeGroup n ⟨a, some l⟩
          rw [show removeGroup n ⟨a, some l⟩ = ⟨a, some (l.erase n)⟩ from by
            simp only [removeGroup, if_pos hm]]
          simp only [removeGroup, if_neg h1]
        · have he : removeGroup n ⟨a, some l⟩ = ⟨a, some l⟩ := by
            simp only [removeGroup, if_neg hm]
          rw [he]
          exact he
  cases p with
  | mk da gs =>
    show Profile.mk da ((gs.map (removeGroup n)).map (removeGroup n)) =
      Profile.mk da (gs.map (removeGroup n))
    rw [List.map_map]
    congr 1
    exact List.map_congr_left (fun g hg => hgroup g hg)

/-- Witness for C5's amended theorem at the concrete profile `pFive`. -/
theorem c5_remove_idempotent_witness :
    remove_syscall_from_profile (remove_syscall_from_profile pFive "read") "read" =
      remove_syscall_from_profile pFive "read" :=
  c5_remove_idempotent pFive "read" (by decide)

/-- Claim C10: when some rule group's names list contains a name more than
once, `remove_syscall_from_profile` erases only the first occurrence in each
group (python `list.remove`), so the name is still in the flattened syscall
set of the result. -/
theorem c10_duplicate_survives_removal (p : Profile) (n : String)
    (h : ∃ g ∈ p.syscalls, 1 < (get_names g).count n) :
    n ∈ get_all_syscalls (remove_syscall_from_profile p n) ∧
      (remove_syscall_from_profile p n).syscalls.map get_names =
        p.syscalls.map (fun g => (get_names g).erase n) := by
  constructor
  · obtain ⟨g, hg, hcount⟩ := h
    rw [mem_get_all_syscalls]
    have h1 : n ∈ (get_names g).erase n := by
      rw [← List.count_pos_iff, List.count_erase_self]
      omega
    have h2 : removeGroup n g ∈ (remove_syscall_from_profile p n).syscalls := by
      rw [syscalls_remove]
      exact List.mem_map_of_mem _ hg
    unfold flat_names
    rw [List.mem_flatten]
    exact ⟨get_names (removeGroup n g), List.mem_map_of_mem _ h2, by
      rwa [get_names_removeGroup]⟩
  · rw [syscalls_remove, List.map_map]
    simp [Function.comp_def, get_names_removeGroup]

/-- Witness for C10 at the concrete profile `pDup`, whose single group lists
`read` twice. -/
theorem c10_duplicate_survives_removal_witness :
    "read" ∈ get_all_syscalls (remove_syscall_from_profile pDup "read") ∧
      (remove_syscall_from_profile pDup "read").syscalls.map get_names =
        pDup.syscalls.map (fun g => (get_names g).erase "read") :=
  c10_duplicate_survives_removal pDup "read"
    ⟨⟨"SCMP_ACT_ALLOW", some ["read", "read"]⟩, by decide, by decide⟩

/-- Claim C4: each iteration's committed working profile has a flattened
syscall count no larger than the previous one (a step either keeps the
working profile or removes occurrences of one name), and a completed run's
final working profile draws its flattened syscall set from the baseline's. -/
theorem c4_monotone_narrowing :
    (∀ (e : TrialEnv) (w wf : Profile) (nec : Finset String) (s : String) (r : StepResult),
      minimizeStep e w wf nec s = Except.ok r →
      (get_all_syscalls r.working).length ≤ (get_all_syscalls w).length) ∧
    (∀ (env : Nat → Profile → TrialEnv) (p : Profile) (st' : RunState),
      minimize_seccomp_profile env p = Except.ok st' →
      ∀ m, m ∈ get_all_syscalls st'.working → m ∈ get_all_syscalls p) := by
  constructor
  · intro e w wf nec s r h
    rcases minimizeStep_ok_working e w wf nec s r h with hw | hw
    · rw [hw]
      exact length_get_all_remove_le w s
    · rw [hw]
  · intro env p st' h m hm
    rw [mem_get_all_syscalls] at hm ⊢
    exact minimizeLoop_working_mem env (get_all_syscalls p) 0 ⟨p, p, ∅, []⟩ st' h m hm

/-- Witness for C4 at the concrete profile `pDup`: one successful step does
not increase the flattened count, and a name of the final profile of a
completed run of `pDup` is a name of the baseline. -/
theorem c4_monotone_narrowing_witness :
    (get_all_syscalls (remove_syscall_from_profile pDup "read")).length ≤
        (get_all_syscalls pDup).length ∧
      "read" ∈ get_all_syscalls pDup :=
  ⟨c4_monotone_narrowing.1 (envOk 0 pDup) pDup pDup ∅ "read"
      ⟨remove_syscall_from_profile pDup "read", remove_syscall_from_profile pDup "read",
        ∅, true⟩ (by decide),
    c4_monotone_narrowing.2 envOk pDup stDup (by decide) "read" (by decide)⟩

/-- Claim C6: when a trial's external calls raise an exception — inside
`run_container_with_profile` (launch or running-state probe) or inside
`test_web_functionality` (verification) — the exception is swallowed there,
the trial counts as failed, the candidate joins the necessary set, and both
the in-memory and the persisted working profile are unchanged. -/
theorem c6_trial_exception_conservative (e : TrialEnv) (w wf : Profile)
    (nec : Finset String) (s : String) (hsave : e.saveTrialOk = true)
    (hexn : e.cenv.exn = true ∨ e.venv.exn = true) :
    ∃ r, minimizeStep e w wf nec s = Except.ok r ∧
      r.working = w ∧ r.persisted = wf ∧ r.necessary = insert s nec := by
  unfold minimizeStep
  rw [if_neg (by rw [hsave]; exact fun hc => Bool.false_ne_true hc.symm)]
  rcases hexn with hexn | hexn
  · rw [run_container_eq_false e.cenv (Or.inr (Or.inr (Or.inl hexn)))]
    rw [if_neg Bool.false_ne_true]
    exact ⟨⟨w, wf, insert s nec, false⟩, rfl, rfl, rfl, rfl⟩
  · by_cases hrc : run_container_with_profile e.cenv = true
    · rw [if_pos hrc, test_web_false_of_exn e.venv hexn, if_neg Bool.false_ne_true]
      exact ⟨⟨w, wf, insert s nec, true⟩, rfl, rfl, rfl, rfl⟩
    · rw [if_neg hrc]
      exact ⟨⟨w, wf, insert s nec, false⟩, rfl, rfl, rfl, rfl⟩

/-- Witness for C6: a docker exception during the launch of the trial of
`read` marks `read` necessary and leaves profiles unchanged. -/
theorem c6_trial_exception_conservative_witness :
    ∃ r, minimizeStep trialEnvExn pOne pOne ∅ "read" = Except.ok r ∧
      r.working = pOne ∧ r.persisted = pOne ∧ r.necessary = insert "read" ∅ :=
  c6_trial_exception_conservative trialEnvExn pOne pOne ∅ "read" rfl (Or.inl rfl)

/-- Claim C7: a trial whose launch does not reach the `Running` state — the
launch command timed out, exited non-zero, or the container was not running
after the settle delay — never invokes `test_web_functionality`. -/
theorem c7_no_verifier_without_running (e : TrialEnv) (w wf : Profile)
    (nec : Finset String) (s : String) (r : StepResult)
    (hfail : e.cenv.runTimeout = true ∨ e.cenv.runExit ≠ 0 ∨ e.cenv.running = false)
    (h : minimizeStep e w wf nec s = Except.ok r) :
    r.verifierInvoked = false := by
  have hrc : run_container_with_profile e.cenv = false := by
    apply run_container_eq_false
    rcases hfail with h1 | h1 | h1
    · exact Or.inl h1
    · exact Or.inr (Or.inl h1)
    · exact Or.inr (Or.inr (Or.inr (Or.inr h1)))
  unfold minimizeStep at h
  by_cases h1 : e.saveTrialOk = false
  · rw [if_pos h1] at h
    exact absurd h (by simp)
  · rw [if_neg h1, hrc, if_neg Bool.false_ne_true] at h
    have hr := (Except.ok.inj h).symm
    subst hr
    rfl

/-- Witness for C7: the trial of `read` whose launch exits non-zero does not
invoke the verifier. -/
theorem c7_no_verifier_without_running_witness : stepLaunchFail.verifierInvoked = false :=
  c7_no_verifier_without_running trialEnvLaunchFail pOne pOne ∅ "read" stepLaunchFail
    (Or.inr (Or.inl (by decide))) (by decide)

/-- Claim C8, as stated, is false: saving the trial profile file happens
before the per-trial `try` block, so when that save raises the run aborts
instead of marking the candidate necessary and continuing. -/
theorem c8_trial_boundary_counterexample :
    minimize_seccomp_profile envTrialSaveFails pOne = Except.error () := by decide

/-- Claim C8 (amended): an error while persisting the trial profile file for
a candidate aborts the run; once that file is saved, the trial boundary never
aborts, and any failure inside it — launch failure, verification failure, or
an error while persisting the committed working policy — is converted to the
conservative outcome that marks the candidate necessary. -/
theorem c8_trial_error_boundaries :
    (∀ (e : TrialEnv) (w wf : Profile) (nec : Finset String) (s : String),
      e.saveTrialOk = false → minimizeStep e w wf nec s = Except.error ()) ∧
    (∀ (e : TrialEnv) (w wf : Profile) (nec : Finset String) (s : String),
      e.saveTrialOk = true → ∃ r, minimizeStep e w wf nec s = Except.ok r) ∧
    (∀ (e : TrialEnv) (w wf : Profile) (nec : Finset String) (s : String),
      e.saveTrialOk = true →
      (run_container_with_profile e.cenv = false ∨ test_web_functionality e.venv = false ∨
        e.saveWorkingOk = false) →
      ∃ r, minimizeStep e w wf nec s = Except.ok r ∧ s ∈ r.necessary) := by
  refine ⟨?_, ?_, ?_⟩
  · intro e w wf nec s hsave
    unfold minimizeStep
    rw [if_pos hsave]
  · intro e w wf nec s hsave
    unfold minimizeStep
    rw [if_neg (by rw [hsave]; exact fun hc => Bool.false_ne_true hc.symm)]
    by_cases h2 : run_container_with_profile e.cenv = true
    · rw [if_pos h2]
      by_cases h3 : test_web_functionality e.venv = true
      · rw [if_pos h3]
        by_cases h4 : e.saveWorkingOk = true
        · rw [if_pos h4]
          exact ⟨_, rfl⟩
        · rw [if_neg h4]
          exact ⟨_, rfl⟩
      · rw [if_neg h3]
        exact ⟨_, rfl⟩
    · rw [if_neg h2]
      exact ⟨_, rfl⟩
  · intro e w wf nec s hsave hfail
    unfold minimizeStep
    rw [if_neg (by rw [hsave]; exact fun hc => Bool.false_ne_true hc.symm)]
    by_cases h2 : run_container_with_profile e.cenv = true
    · rw [if_pos h2]
      by_cases h3 : test_web_functionality e.venv = true
      · rw [if_pos h3]
        have h4 : e.saveWorkingOk = false := by
          rcases hfail with h | h | h
          · exact absurd h2 (by rw [h]; exact Bool.false_ne_true)
          · exact absurd h3 (by rw [h]; exact Bool.false_ne_true)
          · exact h
        rw [if_neg (by rw [h4]; exact Bool.false_ne_true)]
        exact ⟨_, rfl, Finset.mem_insert_self s nec⟩
      · rw [if_neg h3]
        exact ⟨_, rfl, Finset.mem_insert_self s nec⟩
    · rw [if_neg h2]
      exact ⟨_, rfl, Finset.mem_insert_self s nec⟩

/-- Witness for C8's amended theorem: a failing trial-file save aborts, a
saved trial file never aborts, and a launch exception marks the candidate
necessary. -/
theorem c8_trial_error_boundaries_witness :
    minimizeStep (envTrialSaveFails 0 pOne) pOne pOne ∅ "read" = Except.error () ∧
      (∃ r, minimizeStep (envOk 0 pOne) pOne pOne ∅ "read" = Except.ok r) ∧
      ∃ r, minimizeStep trialEnvExn pOne pOne ∅ "read" = Except.ok r ∧
        "read" ∈ r.necessary :=
  ⟨c8_trial_error_boundaries.1 (envTrialSaveFails 0 pOne) pOne pOne ∅ "read" rfl,
    c8_trial_error_boundaries.2.1 (envOk 0 pOne) pOne pOne ∅ "read" rfl,
    c8_trial_error_boundaries.2.2 trialEnvExn pOne pOne ∅ "read" rfl
      (Or.inl (by decide))⟩

/-- Claim C3, as stated, is false for baselines with an in-group duplicate:
minimizing `pDup` (one group with names `["read", "read"]`) under an
all-success environment removes only the first `read`, so `read` is neither
necessary nor removed, and the union of the two sets misses it. -/
theorem c3_partition_counterexample :
    minimize_seccomp_profile envOk pDup = Except.ok stDup ∧
      (stDup.necessary ∪ ((get_all_syscalls pDup).toFinset \
          (get_all_syscalls stDup.working).toFinset) =
        (get_all_syscalls pDup).toFinset) = False :=
  ⟨by decide, eq_false (by decide)⟩

/-- Claim C3 (amended): at the end of a completed run on a baseline none of
whose rule groups repeats a name, and in which every persist of the working
policy succeeded, the necessary set and the removed set (baseline's flattened
set minus the final profile's flattened set) are disjoint and their union is
the baseline's flattened set. -/
theorem c3_necessary_removed_partition (env : Nat → Profile → TrialEnv) (p : Profile)
    (st' : RunState) (henv : ∀ i q, (env i q).saveWorkingOk = true)
    (hp : ∀ g ∈ p.syscalls, (get_names g).Nodup)
    (h : minimize_seccomp_profile env p = Except.ok st') :
    Disjoint st'.necessary
        ((get_all_syscalls p).toFinset \ (get_all_syscalls st'.working).toFinset) ∧
      st'.necessary ∪
          ((get_all_syscalls p).toFinset \ (get_all_syscalls st'.working).toFinset) =
        (get_all_syscalls p).toFinset := by
  obtain ⟨D, N, hDN, hUnion, hFlat, hNec⟩ :=
    minimizeLoop_partition env henv (get_all_syscalls p) 0 p p ∅ [] st'
      (nodup_get_all_syscalls p) hp h
  have hDB : D ⊆ (get_all_syscalls p).toFinset := by
    rw [← hUnion]
    exact Finset.subset_union_left
  have hBF : (get_all_syscalls p).toFinset \ ((get_all_syscalls p).toFinset \ D) = D := by
    ext a
    simp only [Finset.mem_sdiff, not_and, not_not]
    constructor
    · rintro ⟨haB, himp⟩
      exact himp haB
    · intro haD
      exact ⟨hDB haD, fun _ => haD⟩
  rw [hNec, Finset.empty_union, hFlat, hBF]
  refine ⟨hDN.symm, ?_⟩
  rw [Finset.union_comm]
  exact hUnion

/-- Witness for C3's amended theorem: the completed all-success run on `pOne`. -/
theorem c3_necessary_removed_partition_witness :
    Disjoint stOne.necessary
        ((get_all_syscalls pOne).toFinset \ (get_all_syscalls stOne.working).toFinset) ∧
      stOne.necessary ∪
          ((get_all_syscalls pOne).toFinset \ (get_all_syscalls stOne.working).toFinset) =
        (get_all_syscalls pOne).toFinset :=
  c3_necessary_removed_partition envOk pOne stOne (fun _ _ => rfl) (by decide) (by decide)

/-- Claim C9: drawing each candidate from the list computed once from the
baseline — what the script does — is observably the same run as asking the
enumerator for the next untried candidate of the *current* working profile at
every iteration: untried candidates always remain present with unchanged
multiplicity, so re-enumeration offers exactly the untried tail of the
baseline's candidate list.  The equality covers the final profiles, the
necessary set, and the full candidate sequence trialed (`trace`). -/
theorem c9_reenumeration_equivalent (env : Nat → Profile → TrialEnv) (p : Profile)
    (fuel : Nat) (hfuel : (get_all_syscalls p).length ≤ fuel) :
    minimizeSpecReEnum env fuel [] ⟨p, p, ∅, []⟩ = minimize_seccomp_profile env p := by
  have h := specReEnum_eq_minimizeLoop env p fuel 0 ⟨p, p, ∅, []⟩ (Nat.zero_le _)
    (by omega) (fun m _ => rfl)
  exact h

/-- Witness for C9: the five-syscall baseline `pFive` under the futex
environment, with fuel 5. -/
theorem c9_reenumeration_equivalent_witness :
    minimizeSpecReEnum envFutex 5 [] ⟨pFive, pFive, ∅, []⟩ =
      minimize_seccomp_profile envFutex pFive :=
  c9_reenumeration_equivalent envFutex pFive 5 (by decide)

/-- Claim C2: on a baseline whose flattened syscall set is
`{futex, openat, read, socket, write}` with each name occurring once in the
policy, under the environment where every launch succeeds and verification
passes exactly when `futex` remains in the trial profile, the run completes
with necessary set `{futex}`, and the final (persisted) profile's flattened
syscall enumeration is exactly `["futex"]`. -/
theorem c2_futex_scenario (p : Profile)
    (hlist : get_all_syscalls p = ["futex", "openat", "read", "socket", "write"])
    (hnd : (flat_names p).Nodup) :
    ∃ st', minimize_seccomp_profile envFutex p = Except.ok st' ∧
      st'.necessary = {"futex"} ∧ st'.persisted = st'.working ∧
      get_all_syscalls st'.working = ["futex"] := by
  have hg0 : ∀ g ∈ p.syscalls, (get_names g).Nodup := groupwise_nodup_of_flat_nodup p hnd
  have hfut0 : "futex" ∈ flat_names p := by
    rw [← mem_get_all_syscalls, hlist]
    exact List.mem_cons_self _ _
  have h1 : "futex" ∉ get_all_syscalls (remove_syscall_from_profile p "futex") := by
    rw [mem_get_all_syscalls]
    exact not_mem_flat_names_remove p "futex" (groupwise_count_le_one p "futex" hg0)
  have h2 : "futex" ∈ get_all_syscalls (remove_syscall_from_profile p "openat") :=
    futex_mem_remove "openat" (by decide) hfut0
  have hfut1 : "futex" ∈ flat_names (remove_syscall_from_profile p "openat") :=
    mem_get_all_syscalls.mp h2
  have hg1 := groupwise_nodup_remove p "openat" hg0
  have h3 : "futex" ∈ get_all_syscalls (remove_syscall_from_profile
      (remove_syscall_from_profile p "openat") "read") :=
    futex_mem_remove "read" (by decide) hfut1
  have hfut2 := mem_get_all_syscalls.mp h3
  have hg2 := groupwise_nodup_remove (remove_syscall_from_profile p "openat") "read" hg1
  have h4 : "futex" ∈ get_all_syscalls (remove_syscall_from_profile
      (remove_syscall_from_profile (remove_syscall_from_profile p "openat") "read")
      "socket") :=
    futex_mem_remove "socket" (by decide) hfut2
  have hfut3 := mem_get_all_syscalls.mp h4
  have hg3 := groupwise_nodup_remove
    (remove_syscall_from_profile (remove_syscall_from_profile p "openat") "read")
    "socket" hg2
  have h5 : "futex" ∈ get_all_syscalls (remove_syscall_from_profile
      (remove_syscall_from_profile (remove_syscall_from_profile
        (remove_syscall_from_profile p "openat") "read") "socket") "write") :=
    futex_mem_remove "write" (by decide) hfut3
  have hrun : minimize_seccomp_profile envFutex p =
      Except.ok ⟨remove_syscall_from_profile (remove_syscall_from_profile
          (remove_syscall_from_profile (remove_syscall_from_profile p "openat") "read")
          "socket") "write",
        remove_syscall_from_profile (remove_syscall_from_profile
          (remove_syscall_from_profile (remove_syscall_from_profile p "openat") "read")
          "socket") "write",
        insert "futex" ∅, ["futex", "openat", "read", "socket", "write"]⟩ := by
    unfold minimize_seccomp_profile
    rw [hlist]
    rw [minimizeLoop_envFutex_fail _ _ _ _ _ _ _ h1]
    rw [minimizeLoop_envFutex_success _ _ _ _ _ _ _ h2]
    rw [minimizeLoop_envFutex_success _ _ _ _ _ _ _ h3]
    rw [minimizeLoop_envFutex_success _ _ _ _ _ _ _ h4]
    rw [minimizeLoop_envFutex_success _ _ _ _ _ _ _ h5]
    rfl
  refine ⟨_, hrun, ?_, rfl, ?_⟩
  · show insert "futex" (∅ : Finset String) = {"futex"}
    decide
  · apply nodup_mem_iff_singleton (nodup_get_all_syscalls _)
    intro m
    rw [mem_get_all_syscalls,
      mem_flat_names_remove_iff _ (groupwise_count_le_one _ "write" hg3),
      mem_flat_names_remove_iff _ (groupwise_count_le_one _ "socket" hg2),
      mem_flat_names_remove_iff _ (groupwise_count_le_one _ "read" hg1),
      mem_flat_names_remove_iff _ (groupwise_count_le_one _ "openat" hg0),
      ← mem_get_all_syscalls, hlist]
    constructor
    · rintro ⟨⟨⟨⟨hm, ho⟩, hr⟩, hs⟩, hw⟩
      simp only [List.mem_cons, List.not_mem_nil, or_false] at hm
      rcases hm with rfl | rfl | rfl | rfl | rfl
      · rfl
      · exact absurd rfl ho
      · exact absurd rfl hr
      · exact absurd rfl hs
      · exact absurd rfl hw
    · rintro rfl
      refine ⟨⟨⟨⟨List.mem_cons_self _ _, ?_⟩, ?_⟩, ?_⟩, ?_⟩
      · decide
      · decide
      · decide
      · decide

/-- Witness for C2 at the concrete five-syscall baseline `pFive`. -/
theorem c2_futex_scenario_witness :
    ∃ st', minimize_seccomp_profile envFutex pFive = Except.ok st' ∧
      st'.necessary = {"futex"} ∧ st'.persisted = st'.working ∧
      get_all_syscalls st'.working = ["futex"] :=
  c2_futex_scenario pFive (by decide) (by decide)
